import Mathlib

/-!
Verification of the ridge-regression LOOCV notebooks.

The repository consists of three notebooks built around the same numerical
core: an efficient leave-one-out cross-validation (LOOCV) estimator for ridge
regression (one fit plus a leverage correction), a brute-force LOOCV estimator
(one refit per held-out row), a finite-difference local-optimum verifier for
fitted regularization parameters, a Givens-product random rotation generator,
and a Monte-Carlo aggregation routine.

The numerical code is embedded shallowly over exact arithmetic: matrices over
`ℚ` (or `ℝ` where the source uses `cos`/`sin`/`sqrt`), `np.linalg.inv`
modelled by the total function `matInv` (zero on singular input) together with
`Option`-returning variants that model the fact that `np.linalg.inv` raises on
a singular matrix, `np.delete(X, i, 0)` modelled by re-indexing along
`dropIdx`, and Python loops by sums/folds.
-/

namespace Ridge

open Matrix

/-- Model of `np.linalg.inv` over exact arithmetic: the inverse of a
nonsingular square rational matrix (and junk, `0`, on singular input; the
`Option`-level wrappers below model the exception instead). -/
def matInv {p : ℕ} (A : Matrix (Fin p) (Fin p) ℚ) : Matrix (Fin p) (Fin p) ℚ :=
  if A.det = 0 then 0 else A.det⁻¹ • A.adjugate

/-- The regularized Gram matrix `A = XᵀX + ΓᵀΓ` formed by both LOOCV
estimators (`np.dot(X.T, X) + np.dot(Gamma.T, Gamma)`). -/
def regA {n p : ℕ} (X : Matrix (Fin n) (Fin p) ℚ) (Gamma : Matrix (Fin p) (Fin p) ℚ) :
    Matrix (Fin p) (Fin p) ℚ :=
  Xᵀ * X + Gammaᵀ * Gamma

/-- The leverage `hᵢ = xᵢᵀ A⁻¹ xᵢ` computed in `compute_loocv` as
`np.dot(x_i, np.dot(A_inv, x_i))`. -/
def leverage {n p : ℕ} (X : Matrix (Fin n) (Fin p) ℚ) (Gamma : Matrix (Fin p) (Fin p) ℚ)
    (i : Fin n) : ℚ :=
  X i ⬝ᵥ (matInv (regA X Gamma) *ᵥ X i)

/-- Function `compute_loocv` from the first notebook (sum form): one inversion of
`A = XᵀX + ΓᵀΓ`, full-data fit, predictions, leverages, and the score
`Σᵢ ((yᵢ - ŷᵢ)/(1 - hᵢ))²`. -/
def compute_loocv {n p : ℕ} (X : Matrix (Fin n) (Fin p) ℚ) (y : Fin n → ℚ)
    (Gamma : Matrix (Fin p) (Fin p) ℚ) : ℚ :=
  let A_inv := matInv (regA X Gamma)
  let b_hat := A_inv *ᵥ (Xᵀ *ᵥ y)
  let y_hat := X *ᵥ b_hat
  ∑ i, ((y i - y_hat i) / (1 - leverage X Gamma i)) ^ 2

/-- Index renaming performed by `np.delete(-, i, 0)`: the `j`-th row of the
reduced array is row `j` of the original for `j < i` and row `j+1` after. -/
def dropIdx {n : ℕ} (i : Fin n) (j : Fin (n - 1)) : Fin n :=
  if (j : ℕ) < (i : ℕ) then ⟨j, by have := j.isLt; omega⟩
  else ⟨(j : ℕ) + 1, by have := j.isLt; have := i.isLt; omega⟩

/-- Model of `np.delete(X, i, 0)`: the design matrix with row `i` removed. -/
def deleteRow {n p : ℕ} (X : Matrix (Fin n) (Fin p) ℚ) (i : Fin n) :
    Matrix (Fin (n - 1)) (Fin p) ℚ :=
  Matrix.of fun j k => X (dropIdx i j) k

/-- Model of `np.delete(y, i)`: the target vector with entry `i` removed. -/
def deleteEntry {n : ℕ} (y : Fin n → ℚ) (i : Fin n) : Fin (n - 1) → ℚ :=
  fun j => y (dropIdx i j)

/-- The leave-one-out regularized Gram matrix
`A_mi = X_miᵀ X_mi + ΓᵀΓ` formed inside the brute-force loop. -/
def Ami {n p : ℕ} (X : Matrix (Fin n) (Fin p) ℚ) (Gamma : Matrix (Fin p) (Fin p) ℚ)
    (i : Fin n) : Matrix (Fin p) (Fin p) ℚ :=
  regA (deleteRow X i) Gamma

/-- The leave-one-out fit `b_hat_mi = A_mi⁻¹ (X_miᵀ y_mi)`. -/
def bHatMi {n p : ℕ} (X : Matrix (Fin n) (Fin p) ℚ) (y : Fin n → ℚ)
    (Gamma : Matrix (Fin p) (Fin p) ℚ) (i : Fin n) : Fin p → ℚ :=
  matInv (Ami X Gamma i) *ᵥ ((deleteRow X i)ᵀ *ᵥ deleteEntry y i)

/-- Function `compute_loocv_slow` from the first notebook: for each `i`, refit with
row `i` removed and accumulate `(yᵢ - xᵢᵀ b_hat_mi)²`. -/
def compute_loocv_slow {n p : ℕ} (X : Matrix (Fin n) (Fin p) ℚ) (y : Fin n → ℚ)
    (Gamma : Matrix (Fin p) (Fin p) ℚ) : ℚ :=
  ∑ i, (y i - X i ⬝ᵥ bHatMi X y Gamma i) ^ 2

/-- Function `compute_loocv_brute_force` from the second notebook: the same loop as
`compute_loocv_slow` followed by division by `len(y)`. -/
def compute_loocv_brute_force {n p : ℕ} (X : Matrix (Fin n) (Fin p) ℚ) (y : Fin n → ℚ)
    (Gamma : Matrix (Fin p) (Fin p) ℚ) : ℚ :=
  (∑ i, (y i - X i ⬝ᵥ bHatMi X y Gamma i) ^ 2) / (n : ℚ)

/-- Function `compute_loocv_efficient` from the second notebook (also `compute_loocv`
of the rotation notebook): the efficient formula divided by `len(y)`. -/
def compute_loocv_efficient {n p : ℕ} (X : Matrix (Fin n) (Fin p) ℚ) (y : Fin n → ℚ)
    (Gamma : Matrix (Fin p) (Fin p) ℚ) : ℚ :=
  let A_inv := matInv (regA X Gamma)
  let b_hat := A_inv *ᵥ (Xᵀ *ᵥ y)
  let y_hat := X *ᵥ b_hat
  (∑ i, ((y i - y_hat i) / (1 - leverage X Gamma i)) ^ 2) / (n : ℚ)

/-- Function `compute_loocv` from the simulation notebook: takes the already-squared
regularization contribution `D` (`A = np.dot(X.T, X) + D`) and reports the
mean rather than the sum. -/
def compute_loocv_sim {n p : ℕ} (X : Matrix (Fin n) (Fin p) ℚ) (y : Fin n → ℚ)
    (D : Matrix (Fin p) (Fin p) ℚ) : ℚ :=
  let A := Xᵀ * X + D
  let A_inv := matInv A
  let b_hat := A_inv *ᵥ (Xᵀ *ᵥ y)
  let y_hat := X *ᵥ b_hat
  let h := fun i => X i ⬝ᵥ (A_inv *ᵥ X i)
  (∑ i, ((y i - y_hat i) / (1 - h i)) ^ 2) / (n : ℚ)

/- ### Basic bridging lemmas -/

theorem matInv_eq {p : ℕ} (A : Matrix (Fin p) (Fin p) ℚ) (h : IsUnit A.det) :
    matInv A = A⁻¹ := by
  rw [matInv, if_neg h.ne_zero, Matrix.inv_def, Ring.inverse_eq_inv]

theorem vecMulVec_mulVec {p q : ℕ} (a : Fin p → ℚ) (b : Fin q → ℚ) (v : Fin q → ℚ) :
    vecMulVec a b *ᵥ v = (b ⬝ᵥ v) • a := by
  ext i
  show ∑ j, vecMulVec a b i j * v j = (∑ j, b j * v j) * a i
  rw [Finset.sum_mul]
  exact Finset.sum_congr rfl fun j _ => by rw [vecMulVec_apply]; ring

theorem mul_vecMulVec {p q r : ℕ} (M : Matrix (Fin p) (Fin q) ℚ) (a : Fin q → ℚ)
    (b : Fin r → ℚ) : M * vecMulVec a b = vecMulVec (M *ᵥ a) b := by
  ext i j
  show ∑ k, M i k * vecMulVec a b k j = (∑ k, M i k * a k) * b j
  rw [Finset.sum_mul]
  exact Finset.sum_congr rfl fun k _ => by rw [vecMulVec_apply]; ring

theorem vecMulVec_mul {p q r : ℕ} (a : Fin p → ℚ) (b : Fin q → ℚ)
    (M : Matrix (Fin q) (Fin r) ℚ) : vecMulVec a b * M = vecMulVec a (b ᵥ* M) := by
  ext i j
  show ∑ k, vecMulVec a b i k * M k j = a i * ∑ k, b k * M k j
  rw [Finset.mul_sum]
  exact Finset.sum_congr rfl fun k _ => by rw [vecMulVec_apply]; ring

/-- On the successor form of the row dimension, `dropIdx` is `Fin.succAbove`. -/
theorem dropIdx_eq_succAbove {m : ℕ} (i : Fin (m + 1)) (j : Fin m) :
    dropIdx i j = i.succAbove j := by
  by_cases hj : (j : ℕ) < (i : ℕ)
  · rw [dropIdx, if_pos hj, Fin.succAbove, if_pos (by simpa [Fin.lt_def] using hj)]
    exact Fin.ext rfl
  · rw [dropIdx, if_neg hj, Fin.succAbove, if_neg (by simpa [Fin.lt_def] using hj)]
    exact Fin.ext rfl

/-- Deleting row `i` and forming the Gram matrix removes the rank-one
contribution of row `i`. -/
theorem deleteRow_gram {m p : ℕ} (X : Matrix (Fin (m + 1)) (Fin p) ℚ) (i : Fin (m + 1)) :
    (deleteRow X i)ᵀ * deleteRow X i = Xᵀ * X - vecMulVec (X i) (X i) := by
  ext a b
  show ∑ j : Fin m, deleteRow X i j a * deleteRow X i j b
      = (∑ j, X j a * X j b) - vecMulVec (X i) (X i) a b
  rw [Fin.sum_univ_succAbove (fun j => X j a * X j b) i, vecMulVec_apply]
  simp only [deleteRow, Matrix.of_apply, dropIdx_eq_succAbove]
  ring

/-- Deleting entry `i` and forming `X_miᵀ y_mi` removes the contribution
`yᵢ • xᵢ`. -/
theorem deleteRow_dot {m p : ℕ} (X : Matrix (Fin (m + 1)) (Fin p) ℚ) (y : Fin (m + 1) → ℚ)
    (i : Fin (m + 1)) :
    (deleteRow X i)ᵀ *ᵥ deleteEntry y i = Xᵀ *ᵥ y - y i • X i := by
  ext a
  show ∑ j : Fin m, deleteRow X i j a * deleteEntry y i j
      = (∑ j, X j a * y j) - y i * X i a
  rw [Fin.sum_univ_succAbove (fun j => X j a * y j) i]
  simp only [deleteRow, deleteEntry, Matrix.of_apply, dropIdx_eq_succAbove]
  ring

theorem vecMulVec_mul_vecMulVec {α : Type*} [CommRing α] {p q r : ℕ} (a : Fin p → α)
    (b c : Fin q → α)
    (d : Fin r → α) : vecMulVec a b * vecMulVec c d = (b ⬝ᵥ c) • vecMulVec a d := by
  ext i j
  show ∑ k, vecMulVec a b i k * vecMulVec c d k j = (∑ k, b k * c k) * (a i * d j)
  rw [Finset.sum_mul]
  exact Finset.sum_congr rfl fun k _ => by rw [vecMulVec_apply, vecMulVec_apply]; ring

/- ### Sherman–Morrison: explicit two-sided inverse of a rank-one downdate -/

theorem sherman_scalar (s : ℚ) (h : (1 : ℚ) - s ≠ 0) :
    (1 - s)⁻¹ - 1 - (1 - s)⁻¹ * s = 0 := by
  field_simp

theorem sherman_right {p : ℕ} (A : Matrix (Fin p) (Fin p) ℚ) (u : Fin p → ℚ)
    (hA : IsUnit A.det) (hne : u ⬝ᵥ (A⁻¹ *ᵥ u) ≠ 1) :
    (A - vecMulVec u u) *
      (A⁻¹ + (1 - u ⬝ᵥ (A⁻¹ *ᵥ u))⁻¹ • vecMulVec (A⁻¹ *ᵥ u) (u ᵥ* A⁻¹)) = 1 := by
  have h1 : (1 : ℚ) - u ⬝ᵥ (A⁻¹ *ᵥ u) ≠ 0 := sub_ne_zero.mpr (Ne.symm hne)
  have hAu : A *ᵥ (A⁻¹ *ᵥ u) = u := by
    rw [Matrix.mulVec_mulVec, Matrix.mul_nonsing_inv _ hA, Matrix.one_mulVec]
  have expand :
      (A - vecMulVec u u) *
        (A⁻¹ + (1 - u ⬝ᵥ (A⁻¹ *ᵥ u))⁻¹ • vecMulVec (A⁻¹ *ᵥ u) (u ᵥ* A⁻¹))
        = 1 + ((1 - u ⬝ᵥ (A⁻¹ *ᵥ u))⁻¹ - 1 -
            (1 - u ⬝ᵥ (A⁻¹ *ᵥ u))⁻¹ * (u ⬝ᵥ (A⁻¹ *ᵥ u))) •
              vecMulVec u (u ᵥ* A⁻¹) := by
    rw [sub_mul, mul_add, mul_add, Matrix.mul_nonsing_inv _ hA, mul_smul_comm,
      mul_smul_comm, mul_vecMulVec, hAu, vecMulVec_mul, vecMulVec_mul_vecMulVec,
      smul_smul, sub_smul, sub_smul, one_smul]
    abel
  rw [expand, sherman_scalar _ h1, zero_smul, add_zero]

theorem sherman_left {p : ℕ} (A : Matrix (Fin p) (Fin p) ℚ) (u : Fin p → ℚ)
    (hA : IsUnit A.det) (hne : u ⬝ᵥ (A⁻¹ *ᵥ u) ≠ 1) :
    (A⁻¹ + (1 - u ⬝ᵥ (A⁻¹ *ᵥ u))⁻¹ • vecMulVec (A⁻¹ *ᵥ u) (u ᵥ* A⁻¹)) *
      (A - vecMulVec u u) = 1 := by
  have h1 : (1 : ℚ) - u ⬝ᵥ (A⁻¹ *ᵥ u) ≠ 0 := sub_ne_zero.mpr (Ne.symm hne)
  have hvA : (u ᵥ* A⁻¹) ᵥ* A = u := by
    rw [Matrix.vecMul_vecMul, Matrix.nonsing_inv_mul _ hA, Matrix.vecMul_one]
  have hdot : (u ᵥ* A⁻¹) ⬝ᵥ u = u ⬝ᵥ (A⁻¹ *ᵥ u) := (Matrix.dotProduct_mulVec u A⁻¹ u).symm
  have expand :
      (A⁻¹ + (1 - u ⬝ᵥ (A⁻¹ *ᵥ u))⁻¹ • vecMulVec (A⁻¹ *ᵥ u) (u ᵥ* A⁻¹)) *
        (A - vecMulVec u u)
        = 1 + ((1 - u ⬝ᵥ (A⁻¹ *ᵥ u))⁻¹ - 1 -
            (1 - u ⬝ᵥ (A⁻¹ *ᵥ u))⁻¹ * (u ⬝ᵥ (A⁻¹ *ᵥ u))) •
              vecMulVec (A⁻¹ *ᵥ u) u := by
    rw [mul_sub, add_mul, add_mul, Matrix.nonsing_inv_mul _ hA, smul_mul_assoc,
      smul_mul_assoc, vecMulVec_mul, hvA, mul_vecMulVec, vecMulVec_mul_vecMulVec,
      hdot, smul_smul, sub_smul, sub_smul, one_smul]
    abel
  rw [expand, sherman_scalar _ h1, zero_smul, add_zero]

/- ### The leave-one-out residual identity -/

/-- With `A = XᵀX + ΓᵀΓ` invertible and leverage `hᵢ ≠ 1`, the residual of
the fit with row `i` removed equals the full-fit residual divided by
`1 - hᵢ`. -/
theorem residual_identity {m p : ℕ} (X : Matrix (Fin (m + 1)) (Fin p) ℚ)
    (y : Fin (m + 1) → ℚ) (Gamma : Matrix (Fin p) (Fin p) ℚ)
    (hA : IsUnit (regA X Gamma).det) (i : Fin (m + 1)) (hhi : leverage X Gamma i ≠ 1) :
    y i - X i ⬝ᵥ bHatMi X y Gamma i
      = (y i - (X *ᵥ (matInv (regA X Gamma) *ᵥ (Xᵀ *ᵥ y))) i) /
          (1 - leverage X Gamma i) := by
  set A := regA X Gamma with hA_def
  have hminv : matInv A = A⁻¹ := matInv_eq _ hA
  set u := X i with hu_def
  have hlev : leverage X Gamma i = u ⬝ᵥ (A⁻¹ *ᵥ u) := by
    rw [leverage, ← hA_def, hminv, hu_def]
  have hne : u ⬝ᵥ (A⁻¹ *ᵥ u) ≠ 1 := by rw [← hlev]; exact hhi
  have hsne : (1 : ℚ) - u ⬝ᵥ (A⁻¹ *ᵥ u) ≠ 0 := sub_ne_zero.mpr (Ne.symm hne)
  have hAmi : Ami X Gamma i = A - vecMulVec u u := by
    rw [Ami, regA, deleteRow_gram, hA_def, regA, sub_add_eq_add_sub]
  have hBr := sherman_right A u hA hne
  have hAmiInv : matInv (Ami X Gamma i)
      = A⁻¹ + (1 - u ⬝ᵥ (A⁻¹ *ᵥ u))⁻¹ • vecMulVec (A⁻¹ *ᵥ u) (u ᵥ* A⁻¹) := by
    rw [hAmi, matInv_eq _ (Matrix.isUnit_det_of_right_inverse hBr),
      Matrix.inv_eq_right_inv hBr]
  have hfit : bHatMi X y Gamma i
      = (A⁻¹ + (1 - u ⬝ᵥ (A⁻¹ *ᵥ u))⁻¹ • vecMulVec (A⁻¹ *ᵥ u) (u ᵥ* A⁻¹)) *ᵥ
          (Xᵀ *ᵥ y - y i • u) := by
    rw [bHatMi, hAmiInv, deleteRow_dot]
  have happly : (X *ᵥ (matInv A *ᵥ (Xᵀ *ᵥ y))) i = u ⬝ᵥ (A⁻¹ *ᵥ (Xᵀ *ᵥ y)) := by
    rw [hminv]; rfl
  rw [hfit, happly, hlev]
  rw [Matrix.add_mulVec, Matrix.smul_mulVec_assoc, vecMulVec_mulVec,
    Matrix.dotProduct_add, Matrix.dotProduct_mulVec u A⁻¹ (Xᵀ *ᵥ y - y i • u),
    Matrix.dotProduct_sub, Matrix.dotProduct_smul]
  have hvu : (u ᵥ* A⁻¹) ⬝ᵥ u = u ⬝ᵥ (A⁻¹ *ᵥ u) := (Matrix.dotProduct_mulVec u A⁻¹ u).symm
  have hvc : (u ᵥ* A⁻¹) ⬝ᵥ (Xᵀ *ᵥ y) = u ⬝ᵥ (A⁻¹ *ᵥ (Xᵀ *ᵥ y)) :=
    (Matrix.dotProduct_mulVec u A⁻¹ (Xᵀ *ᵥ y)).symm
  rw [Matrix.dotProduct_smul, smul_eq_mul, smul_eq_mul, Matrix.dotProduct_smul,
    smul_eq_mul, hvu, hvc]
  set s := u ⬝ᵥ (A⁻¹ *ᵥ u)
  set q := u ⬝ᵥ (A⁻¹ *ᵥ (Xᵀ *ᵥ y))
  field_simp
  ring

/-- C1: for every design matrix X, target y and regularization Γ with
`A = XᵀX + ΓᵀΓ` invertible (and the scores well defined, i.e. every leverage
`hᵢ ≠ 1`), the efficient LOOCV estimator (one fit plus leverage correction)
and the brute-force LOOCV estimator (one refit per held-out row) return
exactly the same score over exact arithmetic — both in the sum form of the
first notebook and in the mean form of the second notebook. -/
theorem claim1_loocv_equivalence {n p : ℕ} (X : Matrix (Fin n) (Fin p) ℚ)
    (y : Fin n → ℚ) (Gamma : Matrix (Fin p) (Fin p) ℚ)
    (hA : IsUnit (regA X Gamma).det) (hh : ∀ i, leverage X Gamma i ≠ 1) :
    compute_loocv_slow X y Gamma = compute_loocv X y Gamma ∧
    compute_loocv_brute_force X y Gamma = compute_loocv_efficient X y Gamma := by
  have hbs : compute_loocv_brute_force X y Gamma = compute_loocv_slow X y Gamma / n := rfl
  have hec : compute_loocv_efficient X y Gamma = compute_loocv X y Gamma / n := rfl
  cases n with
  | zero =>
    constructor
    · simp [compute_loocv_slow, compute_loocv]
    · rw [hbs, hec]
      simp [compute_loocv_slow, compute_loocv]
  | succ m =>
    have hsum : compute_loocv_slow X y Gamma = compute_loocv X y Gamma := by
      rw [compute_loocv_slow, compute_loocv]
      exact Finset.sum_congr rfl fun i _ => by
        rw [residual_identity X y Gamma hA i (hh i)]
    exact ⟨hsum, by rw [hbs, hec, hsum]⟩

/-- Witness for C1 at a concrete input: `X = [[1]]`, `y = [2]`, `Γ = [[1]]`. -/
theorem claim1_loocv_equivalence_witness :
    IsUnit (regA (Matrix.of ![![(1 : ℚ)]]) (Matrix.of ![![(1 : ℚ)]])).det ∧
    (∀ i, leverage (Matrix.of ![![(1 : ℚ)]]) (Matrix.of ![![(1 : ℚ)]]) i ≠ 1) ∧
    (compute_loocv_slow (Matrix.of ![![(1 : ℚ)]]) ![2] (Matrix.of ![![(1 : ℚ)]])
        = compute_loocv (Matrix.of ![![(1 : ℚ)]]) ![2] (Matrix.of ![![(1 : ℚ)]]) ∧
      compute_loocv_brute_force (Matrix.of ![![(1 : ℚ)]]) ![2] (Matrix.of ![![(1 : ℚ)]])
        = compute_loocv_efficient (Matrix.of ![![(1 : ℚ)]]) ![2] (Matrix.of ![![(1 : ℚ)]])) := by
  have hreg : regA (Matrix.of ![![(1 : ℚ)]]) (Matrix.of ![![(1 : ℚ)]])
      = Matrix.of ![![(2 : ℚ)]] := by
    ext a b
    fin_cases a; fin_cases b
    norm_num [regA, Matrix.mul_apply, Fin.sum_univ_succ]
  have hdet : IsUnit (regA (Matrix.of ![![(1 : ℚ)]]) (Matrix.of ![![(1 : ℚ)]])).det := by
    rw [hreg]
    rw [show (Matrix.of ![![(2 : ℚ)]]).det = 2 from Matrix.det_fin_one _]
    norm_num
  have hlev : ∀ i, leverage (Matrix.of ![![(1 : ℚ)]]) (Matrix.of ![![(1 : ℚ)]]) i ≠ 1 := by
    intro i
    fin_cases i
    have hI : matInv (Matrix.of ![![(2 : ℚ)]]) = Matrix.of ![![(1 / 2 : ℚ)]] := by
      ext a b
      fin_cases a; fin_cases b
      norm_num [matInv, Matrix.det_fin_one, Matrix.adjugate_fin_one]
    rw [leverage, hreg, hI]
    norm_num [Matrix.mulVec, dotProduct, Fin.sum_univ_succ]
  exact ⟨hdet, hlev, claim1_loocv_equivalence _ _ _ hdet hlev⟩

/- ### C2: the efficient estimator computes the contracted formula -/

/-- The contract formula of the spec, written with the mathematical matrix
inverse: `b̂ = A⁻¹Xᵀy`, `ŷ = Xb̂`, `hᵢ = xᵢᵀA⁻¹xᵢ` and score
`Σᵢ ((yᵢ − ŷᵢ)/(1 − hᵢ))²` where `A = XᵀX + D`. -/
noncomputable def loocvSpecSum {n p : ℕ} (X : Matrix (Fin n) (Fin p) ℚ) (y : Fin n → ℚ)
    (D : Matrix (Fin p) (Fin p) ℚ) : ℚ :=
  ∑ i, ((y i - (X *ᵥ ((Xᵀ * X + D)⁻¹ *ᵥ (Xᵀ *ᵥ y))) i) /
      (1 - X i ⬝ᵥ ((Xᵀ * X + D)⁻¹ *ᵥ X i))) ^ 2

/-- C2: with `A = XᵀX + D` invertible, the simulation notebook's
`compute_loocv` returns exactly `Σᵢ((yᵢ − ŷᵢ)/(1 − hᵢ))² / n` and the first
notebook's `compute_loocv` (with `D = ΓᵀΓ`) returns exactly the undivided
sum, where `b̂ = A⁻¹Xᵀy`, `ŷ = Xb̂` and `hᵢ = xᵢᵀA⁻¹xᵢ`. -/
theorem claim2_loocv_contract {n p : ℕ} (X : Matrix (Fin n) (Fin p) ℚ) (y : Fin n → ℚ)
    (D Gamma : Matrix (Fin p) (Fin p) ℚ) (hD : IsUnit (Xᵀ * X + D).det)
    (hG : IsUnit (Xᵀ * X + Gammaᵀ * Gamma).det) :
    compute_loocv_sim X y D = loocvSpecSum X y D / n ∧
    compute_loocv X y Gamma = loocvSpecSum X y (Gammaᵀ * Gamma) := by
  constructor
  · rw [compute_loocv_sim, loocvSpecSum, matInv_eq _ hD]
  · rw [compute_loocv, loocvSpecSum]
    simp only [leverage, regA, matInv_eq _ hG]

/-- Witness for C2 at `X = [[1]]`, `y = [3]`, `D = [[1]]`, `Γ = [[1]]`. -/
theorem claim2_loocv_contract_witness :
    IsUnit ((Matrix.of ![![(1 : ℚ)]])ᵀ * Matrix.of ![![(1 : ℚ)]]
        + Matrix.of ![![(1 : ℚ)]]).det ∧
    IsUnit ((Matrix.of ![![(1 : ℚ)]])ᵀ * Matrix.of ![![(1 : ℚ)]]
        + (Matrix.of ![![(1 : ℚ)]])ᵀ * Matrix.of ![![(1 : ℚ)]]).det ∧
    compute_loocv_sim (Matrix.of ![![(1 : ℚ)]]) ![3] (Matrix.of ![![(1 : ℚ)]])
      = loocvSpecSum (Matrix.of ![![(1 : ℚ)]]) ![3] (Matrix.of ![![(1 : ℚ)]]) / 1 ∧
    compute_loocv (Matrix.of ![![(1 : ℚ)]]) ![3] (Matrix.of ![![(1 : ℚ)]])
      = loocvSpecSum (Matrix.of ![![(1 : ℚ)]]) ![3]
          ((Matrix.of ![![(1 : ℚ)]])ᵀ * Matrix.of ![![(1 : ℚ)]]) := by
  have h1 : IsUnit ((Matrix.of ![![(1 : ℚ)]])ᵀ * Matrix.of ![![(1 : ℚ)]]
      + Matrix.of ![![(1 : ℚ)]]).det := by
    have : ((Matrix.of ![![(1 : ℚ)]])ᵀ * Matrix.of ![![(1 : ℚ)]]
        + Matrix.of ![![(1 : ℚ)]]) = Matrix.of ![![(2 : ℚ)]] := by
      ext a b
      fin_cases a; fin_cases b
      norm_num [Matrix.mul_apply, Fin.sum_univ_succ]
    rw [this, show (Matrix.of ![![(2 : ℚ)]]).det = 2 from Matrix.det_fin_one _]
    norm_num
  have h2 : IsUnit ((Matrix.of ![![(1 : ℚ)]])ᵀ * Matrix.of ![![(1 : ℚ)]]
      + (Matrix.of ![![(1 : ℚ)]])ᵀ * Matrix.of ![![(1 : ℚ)]]).det := by
    have : ((Matrix.of ![![(1 : ℚ)]])ᵀ * Matrix.of ![![(1 : ℚ)]]
        + (Matrix.of ![![(1 : ℚ)]])ᵀ * Matrix.of ![![(1 : ℚ)]]) = Matrix.of ![![(2 : ℚ)]] := by
      ext a b
      fin_cases a; fin_cases b
      norm_num [Matrix.mul_apply, Fin.sum_univ_succ]
    rw [this, show (Matrix.of ![![(2 : ℚ)]]).det = 2 from Matrix.det_fin_one _]
    norm_num
  exact ⟨h1, h2,
    by simpa using (claim2_loocv_contract (Matrix.of ![![(1 : ℚ)]]) ![3]
      (Matrix.of ![![(1 : ℚ)]]) (Matrix.of ![![(1 : ℚ)]]) h1 h2).1,
    (claim2_loocv_contract (Matrix.of ![![(1 : ℚ)]]) ![3]
      (Matrix.of ![![(1 : ℚ)]]) (Matrix.of ![![(1 : ℚ)]]) h1 h2).2⟩

/- ### C10: scalar vs vector regularization dispatch in the ridge fit -/

/-- Model of the `isinstance(alpha, float)` runtime dispatch in
`fit_ridge_regression`: the regularization argument is either a single float
or a per-feature vector. -/
inductive RegParam (p : ℕ) where
  | scalar (a : ℚ)
  | vec (v : Fin p → ℚ)

/-- Function `fit_ridge_regression` from the simulation notebook: a scalar `alpha` is
first broadcast (`alpha = np.ones(X.shape[1]) * alpha`), then
`b̂ = (XᵀX + np.diag(alpha))⁻¹ (Xᵀ y)`. -/
def fit_ridge_regression {n p : ℕ} (X : Matrix (Fin n) (Fin p) ℚ) (y : Fin n → ℚ)
    (alpha : RegParam p) : Fin p → ℚ :=
  let av : Fin p → ℚ :=
    match alpha with
    | RegParam.scalar a => fun _ => 1 * a
    | RegParam.vec v => v
  let A := Xᵀ * X + Matrix.diagonal av
  let A_inv := matInv A
  A_inv *ᵥ (Xᵀ *ᵥ y)

/-- C10: the scalar-dispatch branch of `fit_ridge_regression` returns exactly
the same coefficient vector as the vector branch applied to the constant
vector with every entry equal to that scalar. -/
theorem claim10_fit_dispatch {n p : ℕ} (X : Matrix (Fin n) (Fin p) ℚ) (y : Fin n → ℚ)
    (a : ℚ) :
    fit_ridge_regression X y (RegParam.scalar a)
      = fit_ridge_regression X y (RegParam.vec fun _ => a) := by
  simp only [fit_ridge_regression, one_mul]

/- ### C3: the optimum verifier fails exactly on a significant negative slope -/

/-- The finite-difference step `delta_x = 1.0e-3` of the optimum verifier. -/
def delta_x : ℚ := 1 / 1000

/-- Function `verify_loocv_opt_1` from the simulation notebook; `true` models the
`assert False, "can't verify optimum"` hard failure. -/
def verify_loocv_opt_1 {n p : ℕ} (X : Matrix (Fin n) (Fin p) ℚ) (y : Fin n → ℚ)
    (alpha : ℚ) : Bool :=
  let f : ℚ → ℚ := fun x => compute_loocv_sim X y (x • (1 : Matrix (Fin p) (Fin p) ℚ))
  let f0 := f alpha
  [alpha - delta_x, alpha + delta_x].any fun x0 =>
    let x := |x0|
    let relative_delta_y := (f x - f0) / delta_x
    decide (relative_delta_y < 0 ∧ 1 / 1000 < |relative_delta_y|)

/-- Function `verify_loocv_opt_p` from the simulation notebook; `true` models the
`assert False, "can't verify optimum"` hard failure. The Python
`alpha_copy = np.array(alpha); alpha_copy[i] = x` is `Function.update`. -/
def verify_loocv_opt_p {n p : ℕ} (X : Matrix (Fin n) (Fin p) ℚ) (y : Fin n → ℚ)
    (alpha : Fin p → ℚ) : Bool :=
  (List.finRange p).any fun i =>
    let f : ℚ → ℚ := fun x =>
      compute_loocv_sim X y (Matrix.diagonal (Function.update alpha i x))
    let f0 := f (alpha i)
    [alpha i - delta_x, alpha i + delta_x].any fun x0 =>
      let x := |x0|
      let relative_delta_y := (f x - f0) / delta_x
      decide (relative_delta_y < 0 ∧ 1 / 1000 < |relative_delta_y|)

/-- C3: the verifier fails (raises "can't verify optimum") iff for some
parameter component and some perturbation direction in `{αᵢ−δ, αᵢ+δ}` (the
perturbed value replaced by its absolute value, the other components held
fixed), the finite-difference slope `(f(perturbed) − f(α))/δ` with
`δ = 1e-3` is negative with magnitude exceeding `1e-3`; otherwise it returns
without failing. Stated for both the scalar and the per-feature variants. -/
theorem claim3_verifier_iff {n p : ℕ} (X : Matrix (Fin n) (Fin p) ℚ) (y : Fin n → ℚ)
    (alpha : ℚ) (alphav : Fin p → ℚ) :
    (verify_loocv_opt_1 X y alpha = true ↔
      ∃ x0 ∈ [alpha - delta_x, alpha + delta_x],
        (compute_loocv_sim X y (|x0| • (1 : Matrix (Fin p) (Fin p) ℚ))
            - compute_loocv_sim X y (alpha • 1)) / delta_x < 0 ∧
        1 / 1000 < |(compute_loocv_sim X y (|x0| • (1 : Matrix (Fin p) (Fin p) ℚ))
            - compute_loocv_sim X y (alpha • 1)) / delta_x|) ∧
    (verify_loocv_opt_p X y alphav = true ↔
      ∃ i : Fin p, ∃ x0 ∈ [alphav i - delta_x, alphav i + delta_x],
        (compute_loocv_sim X y (Matrix.diagonal (Function.update alphav i |x0|))
            - compute_loocv_sim X y (Matrix.diagonal alphav)) / delta_x < 0 ∧
        1 / 1000 < |(compute_loocv_sim X y (Matrix.diagonal (Function.update alphav i |x0|))
            - compute_loocv_sim X y (Matrix.diagonal alphav)) / delta_x|) := by
  constructor
  · rw [verify_loocv_opt_1]
    simp [List.any_eq_true]
  · rw [verify_loocv_opt_p]
    simp [List.any_eq_true, List.mem_finRange, Function.update_eq_self]

/- ### C4: rotation sensitivity of the LOOCV score -/

/-- A general evaluation of the mean-form LOOCV score for `n = 2`, `p = 1`. -/
theorem loocv_efficient_eval_two_one (x0 x1 y0 y1 g s : ℚ)
    (ha : x0 ^ 2 + x1 ^ 2 + g ^ 2 = s) (hs : s ≠ 0) :
    compute_loocv_efficient (Matrix.of ![![x0], ![x1]]) ![y0, y1] (Matrix.of ![![g]])
      = (((y0 - x0 * ((x0 * y0 + x1 * y1) / s)) / (1 - x0 ^ 2 / s)) ^ 2
        + ((y1 - x1 * ((x0 * y0 + x1 * y1) / s)) / (1 - x1 ^ 2 / s)) ^ 2) / 2 := by
  subst ha
  have hreg : regA (Matrix.of ![![x0], ![x1]]) (Matrix.of ![![g]])
      = Matrix.of ![![x0 ^ 2 + x1 ^ 2 + g ^ 2]] := by
    ext a b
    fin_cases a; fin_cases b
    simp [regA, Matrix.mul_apply, Fin.sum_univ_succ]
    ring
  have hI : matInv (Matrix.of ![![x0 ^ 2 + x1 ^ 2 + g ^ 2]])
      = Matrix.of ![![1 / (x0 ^ 2 + x1 ^ 2 + g ^ 2)]] := by
    ext a b
    fin_cases a; fin_cases b
    rw [matInv, if_neg (by rw [Matrix.det_fin_one]; simpa using hs)]
    simp [Matrix.det_fin_one, Matrix.adjugate_fin_one]
  rw [compute_loocv_efficient]
  simp only [leverage, hreg, hI]
  norm_num [Matrix.mulVec, dotProduct, Fin.sum_univ_succ]
  ring_nf

/-- The rotation by angle π in the plane: orthogonal, determinant 1,
not the identity. -/
def Qpi : Matrix (Fin 2) (Fin 2) ℚ := Matrix.of ![![-1, 0], ![0, -1]]

/-- A rational rotation (cos θ = 3/5, sin θ = 4/5): orthogonal,
determinant 1, not the identity. -/
def Q345 : Matrix (Fin 2) (Fin 2) ℚ := Matrix.of ![![3/5, -4/5], ![4/5, 3/5]]

/-- The concrete regression problem used for the rotation claims. -/
def Xrot : Matrix (Fin 2) (Fin 1) ℚ := Matrix.of ![![1], ![0]]

/-- Target vector of the concrete rotation problem. -/
def yrot : Fin 2 → ℚ := ![1, 1]

/-- Non-trivial diagonal regularization of the concrete rotation problem. -/
def GammaRot : Matrix (Fin 1) (Fin 1) ℚ := Matrix.of ![![1]]

/-- C4 counterexample: the rotation by π (`Q = -I`, orthogonal, determinant
1, not the identity) applied simultaneously to X and y leaves the LOOCV
score unchanged, refuting "for all non-identity orthogonal Q the scores
differ". -/
theorem claim4_counterexample :
    Qpiᵀ * Qpi = 1 ∧ Qpi.det = 1 ∧ Qpi ≠ 1 ∧
    compute_loocv_efficient (Qpi * Xrot) (Qpi *ᵥ yrot) GammaRot
      = compute_loocv_efficient Xrot yrot GammaRot := by
  refine ⟨?_, ?_, ?_, ?_⟩
  · ext a b
    fin_cases a <;> fin_cases b <;>
      norm_num [Qpi, Matrix.mul_apply, Fin.sum_univ_succ, Matrix.one_apply]
  · rw [Matrix.det_fin_two]
    norm_num [Qpi]
  · intro h
    have := congrFun (congrFun h 0) 0
    norm_num [Qpi, Matrix.one_apply] at this
  · have hX : Qpi * Xrot = Matrix.of ![![-1], ![0]] := by
      ext a b
      fin_cases a <;> fin_cases b <;>
        norm_num [Qpi, Xrot, Matrix.mul_apply, Fin.sum_univ_succ]
    have hy : Qpi *ᵥ yrot = ![-1, -1] := by
      ext a
      fin_cases a <;>
        norm_num [Qpi, yrot, Matrix.mulVec, dotProduct, Fin.sum_univ_succ]
    rw [hX, hy]
    rw [show GammaRot = Matrix.of ![![(1 : ℚ)]] from rfl,
      show Xrot = Matrix.of ![![(1 : ℚ)], ![0]] from rfl,
      show yrot = ![(1 : ℚ), 1] from rfl,
      loocv_efficient_eval_two_one (-1) 0 (-1) (-1) 1 2 (by norm_num) (by norm_num),
      loocv_efficient_eval_two_one 1 0 1 1 1 2 (by norm_num) (by norm_num)]
    norm_num

/-- C4 amended: the LOOCV score is not invariant under simultaneous rotation
of X and y with a fixed diagonal Γ — there is a non-identity orthogonal
rotation (determinant 1) that changes the score (though not every one does):
with cos θ = 3/5, sin θ = 4/5 the rotated and unrotated scores differ. -/
theorem claim4_rotation_sensitivity :
    Q345ᵀ * Q345 = 1 ∧ Q345.det = 1 ∧ Q345 ≠ 1 ∧
    compute_loocv_efficient (Q345 * Xrot) (Q345 *ᵥ yrot) GammaRot
      ≠ compute_loocv_efficient Xrot yrot GammaRot := by
  refine ⟨?_, ?_, ?_, ?_⟩
  · ext a b
    fin_cases a <;> fin_cases b <;>
      norm_num [Q345, Matrix.mul_apply, Fin.sum_univ_succ, Matrix.one_apply]
  · rw [Matrix.det_fin_two]
    norm_num [Q345]
  · intro h
    have := congrFun (congrFun h 0) 0
    norm_num [Q345, Matrix.one_apply] at this
  · have hX : Q345 * Xrot = Matrix.of ![![3/5], ![4/5]] := by
      ext a b
      fin_cases a <;> fin_cases b <;>
        norm_num [Q345, Xrot, Matrix.mul_apply, Fin.sum_univ_succ]
    have hy : Q345 *ᵥ yrot = ![-1/5, 7/5] := by
      ext a
      fin_cases a <;>
        norm_num [Q345, yrot, Matrix.mulVec, dotProduct, Fin.sum_univ_succ]
    rw [hX, hy]
    rw [show GammaRot = Matrix.of ![![(1 : ℚ)]] from rfl,
      show Xrot = Matrix.of ![![(1 : ℚ)], ![0]] from rfl,
      show yrot = ![(1 : ℚ), 1] from rfl,
      loocv_efficient_eval_two_one (3/5) (4/5) (-1/5) (7/5) 1 2 (by norm_num) (by norm_num),
      loocv_efficient_eval_two_one 1 0 1 1 1 2 (by norm_num) (by norm_num)]
    norm_num

/- ### C5: every leverage lies in [0, 1) under genuine regularization -/

/-- Positive definiteness over `ℚ` (the spec's hypothesis class): symmetric
with a positive quadratic form on nonzero vectors. -/
def PosDefQ {p : ℕ} (M : Matrix (Fin p) (Fin p) ℚ) : Prop :=
  Mᵀ = M ∧ ∀ v : Fin p → ℚ, v ≠ 0 → 0 < v ⬝ᵥ (M *ᵥ v)

theorem PosDefQ.isUnit_det {p : ℕ} {M : Matrix (Fin p) (Fin p) ℚ} (hM : PosDefQ M) :
    IsUnit M.det := by
  rw [isUnit_iff_ne_zero]
  intro hdet
  obtain ⟨v, hv, hMv⟩ := Matrix.exists_mulVec_eq_zero_iff.mpr hdet
  have := hM.2 v hv
  rw [hMv, Matrix.dotProduct_zero] at this
  exact lt_irrefl 0 this

/-- The quadratic form of a Gram matrix is the squared norm of `X *ᵥ v`. -/
theorem dot_gram {n p : ℕ} (X : Matrix (Fin n) (Fin p) ℚ) (v : Fin p → ℚ) :
    v ⬝ᵥ ((Xᵀ * X) *ᵥ v) = (X *ᵥ v) ⬝ᵥ (X *ᵥ v) := by
  rw [← Matrix.mulVec_mulVec, Matrix.dotProduct_mulVec, Matrix.vecMul_transpose]

/-- C5: whenever `A = XᵀX + ΓᵀΓ` is positive definite and the regularization
is genuine (`ΓᵀΓ` positive definite), every leverage
`hᵢ = xᵢᵀ A⁻¹ xᵢ` computed by the efficient estimator lies in `[0, 1)`. -/
theorem claim5_leverage_bound {n p : ℕ} (X : Matrix (Fin n) (Fin p) ℚ)
    (Gamma : Matrix (Fin p) (Fin p) ℚ) (hA : PosDefQ (regA X Gamma))
    (hG : PosDefQ (Gammaᵀ * Gamma)) (i : Fin n) :
    0 ≤ leverage X Gamma i ∧ leverage X Gamma i < 1 := by
  have hdet := hA.isUnit_det
  have hminv := matInv_eq _ hdet
  set u := X i with hu
  set w := (regA X Gamma)⁻¹ *ᵥ u with hwdef
  have hlev : leverage X Gamma i = u ⬝ᵥ w := by rw [leverage, hminv]
  have hAw : regA X Gamma *ᵥ w = u := by
    rw [hwdef, Matrix.mulVec_mulVec, Matrix.mul_nonsing_inv _ hdet, Matrix.one_mulVec]
  by_cases hw0 : w = 0
  · rw [hlev, hw0, Matrix.dotProduct_zero]
    norm_num
  · have hwu : 0 < w ⬝ᵥ u := by
      have := hA.2 w hw0
      rwa [hAw] at this
    have hcomm : u ⬝ᵥ w = w ⬝ᵥ u := Matrix.dotProduct_comm u w
    have hexp : w ⬝ᵥ ((regA X Gamma - vecMulVec u u) *ᵥ w)
        = (X *ᵥ w) ⬝ᵥ (X *ᵥ w) + w ⬝ᵥ ((Gammaᵀ * Gamma) *ᵥ w)
          - (u ⬝ᵥ w) * (w ⬝ᵥ u) := by
      rw [Matrix.sub_mulVec, Matrix.dotProduct_sub, vecMulVec_mulVec,
        Matrix.dotProduct_smul, smul_eq_mul, regA, Matrix.add_mulVec,
        Matrix.dotProduct_add, dot_gram]
    have hXle : (u ⬝ᵥ w) * (u ⬝ᵥ w) ≤ (X *ᵥ w) ⬝ᵥ (X *ᵥ w) := by
      have hrow : u ⬝ᵥ w = (X *ᵥ w) i := rfl
      rw [hrow]
      exact Finset.single_le_sum (fun j _ => mul_self_nonneg ((X *ᵥ w) j))
        (Finset.mem_univ i)
    have hGw : 0 < w ⬝ᵥ ((Gammaᵀ * Gamma) *ᵥ w) := hG.2 w hw0
    have hMpos : 0 < w ⬝ᵥ ((regA X Gamma - vecMulVec u u) *ᵥ w) := by
      rw [hexp, ← hcomm]
      nlinarith [hXle, hGw]
    have hMw2 : w ⬝ᵥ ((regA X Gamma - vecMulVec u u) *ᵥ w)
        = w ⬝ᵥ u - (u ⬝ᵥ w) * (w ⬝ᵥ u) := by
      rw [Matrix.sub_mulVec, Matrix.dotProduct_sub, hAw, vecMulVec_mulVec,
        Matrix.dotProduct_smul, smul_eq_mul]
    rw [hMw2] at hMpos
    rw [hlev]
    constructor
    · rw [hcomm]
      exact le_of_lt hwu
    · nlinarith [hwu, hMpos, hcomm]

/-- Witness for C5 at `X = [[1]]`, `Γ = [[1]]`. -/
theorem claim5_leverage_bound_witness :
    PosDefQ (regA (Matrix.of ![![(1 : ℚ)]]) (Matrix.of ![![(1 : ℚ)]])) ∧
    PosDefQ ((Matrix.of ![![(1 : ℚ)]])ᵀ * Matrix.of ![![(1 : ℚ)]]) ∧
    (0 ≤ leverage (Matrix.of ![![(1 : ℚ)]]) (Matrix.of ![![(1 : ℚ)]]) 0 ∧
      leverage (Matrix.of ![![(1 : ℚ)]]) (Matrix.of ![![(1 : ℚ)]]) 0 < 1) := by
  have hentry : ∀ v : Fin 1 → ℚ, v ≠ 0 → v 0 ≠ 0 := by
    intro v hv h0
    exact hv (funext fun j => by fin_cases j; exact h0)
  have hA : PosDefQ (regA (Matrix.of ![![(1 : ℚ)]]) (Matrix.of ![![(1 : ℚ)]])) := by
    constructor
    · ext a b
      fin_cases a; fin_cases b
      norm_num [regA, Matrix.transpose_apply, Matrix.mul_apply, Fin.sum_univ_succ]
    · intro v hv
      have h2 : v ⬝ᵥ (regA (Matrix.of ![![(1 : ℚ)]]) (Matrix.of ![![(1 : ℚ)]]) *ᵥ v)
          = 2 * (v 0 * v 0) := by
        norm_num [regA, dotProduct, Matrix.mulVec, Matrix.mul_apply, Fin.sum_univ_succ]
        ring
      rw [h2]
      nlinarith [mul_self_pos.mpr (hentry v hv)]
  have hG : PosDefQ ((Matrix.of ![![(1 : ℚ)]])ᵀ * Matrix.of ![![(1 : ℚ)]]) := by
    constructor
    · ext a b
      fin_cases a; fin_cases b
      norm_num [Matrix.transpose_apply, Matrix.mul_apply, Fin.sum_univ_succ]
    · intro v hv
      have h1 : v ⬝ᵥ (((Matrix.of ![![(1 : ℚ)]])ᵀ * Matrix.of ![![(1 : ℚ)]]) *ᵥ v)
          = v 0 * v 0 := by
        norm_num [dotProduct, Matrix.mulVec, Matrix.mul_apply, Fin.sum_univ_succ]
      rw [h1]
      exact mul_self_pos.mpr (hentry v hv)
  exact ⟨hA, hG, claim5_leverage_bound _ _ hA hG 0⟩

/- ### C6: error behaviour on singular regularized systems -/

/-- The efficient estimator with failures modelled as `none`: `np.linalg.inv`
raises on a singular `A = XᵀX + ΓᵀΓ`, and the final `/ len(y)` raises when
`n = 0`. -/
def compute_loocv_efficientOpt {n p : ℕ} (X : Matrix (Fin n) (Fin p) ℚ) (y : Fin n → ℚ)
    (Gamma : Matrix (Fin p) (Fin p) ℚ) : Option ℚ :=
  if (regA X Gamma).det = 0 then none
  else if n = 0 then none
  else some (compute_loocv_efficient X y Gamma)

/-- The brute-force estimator with failures modelled as `none`: the loop
raises at the first `i` whose leave-one-out matrix `A_mi` is singular, and
the final `/ len(y)` raises when `n = 0`. -/
def compute_loocv_brute_forceOpt {n p : ℕ} (X : Matrix (Fin n) (Fin p) ℚ) (y : Fin n → ℚ)
    (Gamma : Matrix (Fin p) (Fin p) ℚ) : Option ℚ :=
  if ∃ i : Fin n, (Ami X Gamma i).det = 0 then none
  else if n = 0 then none
  else some (compute_loocv_brute_force X y Gamma)

theorem dot_self_nonneg {q : ℕ} (v : Fin q → ℚ) : 0 ≤ v ⬝ᵥ v :=
  Finset.sum_nonneg fun i _ => mul_self_nonneg (v i)

/-- A vector in the kernel of a singular `A = XᵀX + ΓᵀΓ` is simultaneously
in the kernels of `X` and `Γ`. -/
theorem regA_singular_kernel {n p : ℕ} (X : Matrix (Fin n) (Fin p) ℚ)
    (Gamma : Matrix (Fin p) (Fin p) ℚ) (hdet : (regA X Gamma).det = 0) :
    ∃ v : Fin p → ℚ, v ≠ 0 ∧ X *ᵥ v = 0 ∧ Gamma *ᵥ v = 0 := by
  obtain ⟨v, hv, hAv⟩ := Matrix.exists_mulVec_eq_zero_iff.mpr hdet
  have hq : v ⬝ᵥ (regA X Gamma *ᵥ v) = 0 := by rw [hAv, Matrix.dotProduct_zero]
  rw [regA, Matrix.add_mulVec, Matrix.dotProduct_add, dot_gram, dot_gram] at hq
  have hX0 : (X *ᵥ v) ⬝ᵥ (X *ᵥ v) = 0 := by
    have h1 := dot_self_nonneg (X *ᵥ v)
    have h2 := dot_self_nonneg (Gamma *ᵥ v)
    linarith
  have hG0 : (Gamma *ᵥ v) ⬝ᵥ (Gamma *ᵥ v) = 0 := by
    have h1 := dot_self_nonneg (X *ᵥ v)
    have h2 := dot_self_nonneg (Gamma *ᵥ v)
    linarith
  exact ⟨v, hv, Matrix.dotProduct_self_eq_zero.mp hX0,
    Matrix.dotProduct_self_eq_zero.mp hG0⟩

/-- If `A = XᵀX + ΓᵀΓ` is singular then so is every leave-one-out matrix
`A_mi`, hence the brute-force loop's solver also raises. -/
theorem Ami_singular_of_regA_singular {n p : ℕ} (X : Matrix (Fin n) (Fin p) ℚ)
    (Gamma : Matrix (Fin p) (Fin p) ℚ) (hdet : (regA X Gamma).det = 0) (i : Fin n) :
    (Ami X Gamma i).det = 0 := by
  obtain ⟨v, hv, hXv, hGv⟩ := regA_singular_kernel X Gamma hdet
  rw [← Matrix.exists_mulVec_eq_zero_iff]
  refine ⟨v, hv, ?_⟩
  have h1 : deleteRow X i *ᵥ v = 0 := by
    ext j
    exact congrFun hXv (dropIdx i j)
  rw [Ami, regA, Matrix.add_mulVec, ← Matrix.mulVec_mulVec, ← Matrix.mulVec_mulVec,
    h1, hGv, Matrix.mulVec_zero, Matrix.mulVec_zero, add_zero]

/-- C6 (amended): with `n ≥ 1`, both estimators fail with the solver error
whenever `A = XᵀX + ΓᵀΓ` is singular; when `A` is invertible the efficient
estimator's error branch is unreachable and it returns a value. (The
brute-force estimator, by contrast, can still fail for invertible `A`; see
the counterexample.) -/
theorem claim6_singular_error {n p : ℕ} (X : Matrix (Fin n) (Fin p) ℚ) (y : Fin n → ℚ)
    (Gamma : Matrix (Fin p) (Fin p) ℚ) (hn : 0 < n) :
    ((regA X Gamma).det = 0 → compute_loocv_efficientOpt X y Gamma = none ∧
      compute_loocv_brute_forceOpt X y Gamma = none) ∧
    ((regA X Gamma).det ≠ 0 →
      compute_loocv_efficientOpt X y Gamma = some (compute_loocv_efficient X y Gamma)) := by
  constructor
  · intro hdet
    constructor
    · rw [compute_loocv_efficientOpt, if_pos hdet]
    · rw [compute_loocv_brute_forceOpt,
        if_pos ⟨⟨0, hn⟩, Ami_singular_of_regA_singular X Gamma hdet ⟨0, hn⟩⟩]
  · intro hdet
    rw [compute_loocv_efficientOpt, if_neg hdet, if_neg (Nat.pos_iff_ne_zero.mp hn)]

/-- C6 counterexample: with `X` the 2×2 identity design and `Γ = 0`,
`A = XᵀX` is invertible, yet the brute-force estimator still hits the solver
error (the first leave-one-out matrix is singular), refuting "under the
precondition that A is invertible, the error branch is unreachable" for the
brute-force estimator. -/
theorem claim6_counterexample :
    (regA (Matrix.of ![![(1 : ℚ), 0], ![0, 1]]) 0).det ≠ 0 ∧
    compute_loocv_brute_forceOpt (Matrix.of ![![(1 : ℚ), 0], ![0, 1]]) ![1, 1] 0
      = none := by
  have hreg : regA (Matrix.of ![![(1 : ℚ), 0], ![0, 1]]) 0
      = Matrix.of ![![(1 : ℚ), 0], ![0, 1]] := by
    ext a b
    fin_cases a <;> fin_cases b <;>
      norm_num [regA, Matrix.mul_apply, Fin.sum_univ_succ]
  have hAmi : Ami (Matrix.of ![![(1 : ℚ), 0], ![0, 1]]) 0 0
      = Matrix.of ![![(0 : ℚ), 0], ![0, 1]] := by
    ext a b
    fin_cases a <;> fin_cases b <;>
      norm_num [Ami, regA, deleteRow, dropIdx, Matrix.mul_apply, Fin.sum_univ_succ]
  constructor
  · rw [hreg, Matrix.det_fin_two]
    norm_num
  · rw [compute_loocv_brute_forceOpt,
      if_pos ⟨0, by rw [hAmi, Matrix.det_fin_two]; norm_num⟩]

/-- Witness for C6 (amended): a singular instance where both estimators
fail, and an invertible instance where the efficient estimator returns a
value. -/
theorem claim6_singular_error_witness :
    (regA (Matrix.of ![![(0 : ℚ)]]) (Matrix.of ![![(0 : ℚ)]])).det = 0 ∧
    compute_loocv_efficientOpt (Matrix.of ![![(0 : ℚ)]]) ![1] (Matrix.of ![![(0 : ℚ)]])
      = none ∧
    compute_loocv_brute_forceOpt (Matrix.of ![![(0 : ℚ)]]) ![1] (Matrix.of ![![(0 : ℚ)]])
      = none ∧
    (regA (Matrix.of ![![(1 : ℚ)]]) (Matrix.of ![![(1 : ℚ)]])).det ≠ 0 ∧
    compute_loocv_efficientOpt (Matrix.of ![![(1 : ℚ)]]) ![1] (Matrix.of ![![(1 : ℚ)]])
      = some (compute_loocv_efficient (Matrix.of ![![(1 : ℚ)]]) ![1]
          (Matrix.of ![![(1 : ℚ)]])) := by
  have h0 : (regA (Matrix.of ![![(0 : ℚ)]]) (Matrix.of ![![(0 : ℚ)]])).det = 0 := by
    have : regA (Matrix.of ![![(0 : ℚ)]]) (Matrix.of ![![(0 : ℚ)]])
        = Matrix.of ![![(0 : ℚ)]] := by
      ext a b
      fin_cases a; fin_cases b
      norm_num [regA, Matrix.mul_apply, Fin.sum_univ_succ]
    rw [this, Matrix.det_fin_one]
    norm_num
  have h1 : (regA (Matrix.of ![![(1 : ℚ)]]) (Matrix.of ![![(1 : ℚ)]])).det ≠ 0 := by
    have : regA (Matrix.of ![![(1 : ℚ)]]) (Matrix.of ![![(1 : ℚ)]])
        = Matrix.of ![![(2 : ℚ)]] := by
      ext a b
      fin_cases a; fin_cases b
      norm_num [regA, Matrix.mul_apply, Fin.sum_univ_succ]
    rw [this, Matrix.det_fin_one]
    norm_num
  have hs := claim6_singular_error (Matrix.of ![![(0 : ℚ)]]) ![1]
    (Matrix.of ![![(0 : ℚ)]]) (by norm_num)
  have hns := claim6_singular_error (Matrix.of ![![(1 : ℚ)]]) ![1]
    (Matrix.of ![![(1 : ℚ)]]) (by norm_num)
  exact ⟨h0, (hs.1 h0).1, (hs.1 h0).2, h1, hns.2 h1⟩

/- ### C7: Monte-Carlo aggregation statistics -/

/-- Model of `np.mean(values)`. -/
noncomputable def np_mean (values : List ℝ) : ℝ := values.sum / values.length

/-- Model of `np.std(values, ddof=1)`: the square root of
`Σ(v − mean)² / (n − ddof)`. -/
noncomputable def np_std_ddof1 (values : List ℝ) : ℝ :=
  Real.sqrt ((values.map fun v => (v - np_mean values) ^ 2).sum
    / ((values.length : ℝ) - 1))

/-- Modelled from scipy's documented behaviour:
`scipy.stats.t.interval(alpha=0.95, df, scale)` with the default `loc = 0`
returns the symmetric interval `(0 - q·scale, 0 + q·scale)` where `q` is the
97.5% quantile of the Student-t distribution with `df` degrees of freedom;
the quantile function `tq` is kept abstract. -/
def t_interval (tq : ℕ → ℝ) (df : ℕ) (scale : ℝ) : ℝ × ℝ :=
  (0 - tq df * scale, 0 + tq df * scale)

/-- Function `compute_simulation_statistics` from the simulation notebook,
parameterized by the abstract Student-t quantile `tq`. -/
noncomputable def compute_simulation_statistics (tq : ℕ → ℝ) (values : List ℝ) :
    ℝ × ℝ :=
  let n := values.length
  let mean := np_mean values
  let stddev := np_std_ddof1 values
  let interval := t_interval tq (n - 1) (stddev / Real.sqrt n)
  (mean, interval.2)

/-- C7: the per-size aggregation returns the sample mean of the recorded
errors together with the upper endpoint of a Student-t interval with
`n_trials − 1` degrees of freedom and scale equal to the sample standard
deviation (ddof 1) divided by `√n_trials`: the pair
`(Σv/n, q_{n−1} · (√(Σ(v − mean)²/(n−1)) / √n))`. -/
theorem claim7_simulation_statistics (tq : ℕ → ℝ) (values : List ℝ) :
    compute_simulation_statistics tq values
      = (values.sum / values.length,
        tq (values.length - 1) *
          (Real.sqrt ((values.map fun v => (v - values.sum / values.length) ^ 2).sum
              / ((values.length : ℝ) - 1)) / Real.sqrt values.length)) := by
  rw [compute_simulation_statistics, t_interval, np_std_ddof1, np_mean]
  norm_num

/- ### C9: the generated rotation matrix is orthogonal with determinant 1 -/

/-- The `i`-th planar rotation built inside `generate_rotation_matrix`: the
identity with the four entries `(i,i)`, `(i,i+1)`, `(i+1,i)`, `(i+1,i+1)`
overwritten by `cos θ`, `−sin θ`, `sin θ`, `cos θ`. -/
noncomputable def givens (n : ℕ) (i : ℕ) (theta : ℝ) : Matrix (Fin n) (Fin n) ℝ :=
  Matrix.of fun a b =>
    if (a : ℕ) = i ∧ (b : ℕ) = i then Real.cos theta
    else if (a : ℕ) = i ∧ (b : ℕ) = i + 1 then -Real.sin theta
    else if (a : ℕ) = i + 1 ∧ (b : ℕ) = i then Real.sin theta
    else if (a : ℕ) = i + 1 ∧ (b : ℕ) = i + 1 then Real.cos theta
    else if a = b then 1 else 0

/-- Function `generate_rotation_matrix` from the rotation notebook: starting from the
identity, multiply in `n−1` successive planar rotations in adjacent
coordinate planes, with the angles drawn from the supplied sequence. -/
noncomputable def generate_rotation_matrix (n : ℕ) (thetas : ℕ → ℝ) :
    Matrix (Fin n) (Fin n) ℝ :=
  (List.range (n - 1)).foldl (fun result i => result * givens n i (thetas i)) 1

/-- The half-angle Householder vector of the plane `(i, i+1)`. -/
noncomputable def wv (n i : ℕ) (theta : ℝ) : Fin n → ℝ := fun a =>
  if (a : ℕ) = i then -Real.sin (theta / 2)
  else if (a : ℕ) = i + 1 then Real.cos (theta / 2) else 0

theorem wv_dot {n : ℕ} {i : ℕ} (h : i + 1 < n) (theta : ℝ) :
    wv n i theta ⬝ᵥ wv n i theta = 1 := by
  have hin : i < n := by omega
  have hne : (⟨i, hin⟩ : Fin n) ≠ ⟨i + 1, h⟩ := by
    simp only [ne_eq, Fin.mk.injEq]
    omega
  have hsupp : ∀ x : Fin n, x ∈ (Finset.univ : Finset (Fin n)) →
      x ∉ ({⟨i, hin⟩, ⟨i + 1, h⟩} : Finset (Fin n)) →
      wv n i theta x * wv n i theta x = 0 := by
    intro x _ hx
    simp only [Finset.mem_insert, Finset.mem_singleton] at hx
    push_neg at hx
    have h1 : (x : ℕ) ≠ i := fun hcon => hx.1 (Fin.ext hcon)
    have h2 : (x : ℕ) ≠ i + 1 := fun hcon => hx.2 (Fin.ext hcon)
    rw [wv]
    simp [h1, h2]
  have hsum : wv n i theta ⬝ᵥ wv n i theta
      = ∑ x ∈ ({⟨i, hin⟩, ⟨i + 1, h⟩} : Finset (Fin n)),
          wv n i theta x * wv n i theta x :=
    (Finset.sum_subset (Finset.subset_univ _) hsupp).symm
  have e1 : wv n i theta ⟨i, hin⟩ = -Real.sin (theta / 2) := by
    rw [wv]
    norm_num
  have e2 : wv n i theta ⟨i + 1, h⟩ = Real.cos (theta / 2) := by
    rw [wv]
    norm_num
  rw [hsum, Finset.sum_pair hne, e1, e2]
  nlinarith [Real.sin_sq_add_cos_sq (theta / 2)]

/-- The Givens factor decomposes as the product of a Householder reflection
about the half-angle vector and a coordinate reflection. -/
theorem givens_factorization {n : ℕ} {i : ℕ} (theta : ℝ) :
    givens n i theta
      = (1 - vecMulVec ((2 : ℝ) • wv n i theta) (wv n i theta)) *
          Matrix.diagonal (fun b : Fin n => if (b : ℕ) = i + 1 then (-1 : ℝ) else 1) := by
  have h2eq : 2 * (theta / 2) = theta := by ring
  have hs : Real.sin theta = 2 * Real.sin (theta / 2) * Real.cos (theta / 2) := by
    rw [← Real.sin_two_mul, h2eq]
  have hc2 : Real.cos theta = 2 * Real.cos (theta / 2) ^ 2 - 1 := by
    rw [← Real.cos_two_mul, h2eq]
  have hc : Real.cos theta = 1 - 2 * Real.sin (theta / 2) ^ 2 := by
    nlinarith [Real.sin_sq_add_cos_sq (theta / 2)]
  ext a b
  rw [Matrix.mul_diagonal]
  simp only [givens, Matrix.of_apply, Matrix.sub_apply, Matrix.one_apply,
    vecMulVec_apply, Pi.smul_apply, smul_eq_mul, wv, Fin.ext_iff]
  by_cases h1 : (a : ℕ) = i <;> by_cases h2 : (a : ℕ) = i + 1 <;>
    by_cases h3 : (b : ℕ) = i <;> by_cases h4 : (b : ℕ) = i + 1
  all_goals first
    | (exfalso; omega)
    | (simp [h1, h2, h3, h4, eq_comm] <;>
        first
          | linear_combination hc
          | linear_combination hc2
          | linear_combination hs)

theorem householder_transpose {n : ℕ} (i : ℕ) (theta : ℝ) :
    (1 - vecMulVec ((2 : ℝ) • wv n i theta) (wv n i theta))ᵀ
      = 1 - vecMulVec ((2 : ℝ) • wv n i theta) (wv n i theta) := by
  rw [Matrix.transpose_sub, Matrix.transpose_one]
  congr 1
  ext a b
  simp only [Matrix.transpose_apply, vecMulVec_apply, Pi.smul_apply, smul_eq_mul]
  ring

theorem householder_sq {n : ℕ} (i : ℕ) (theta : ℝ)
    (hw : wv n i theta ⬝ᵥ wv n i theta = 1) :
    (1 - vecMulVec ((2 : ℝ) • wv n i theta) (wv n i theta)) *
      (1 - vecMulVec ((2 : ℝ) • wv n i theta) (wv n i theta)) = 1 := by
  have hdot : wv n i theta ⬝ᵥ ((2 : ℝ) • wv n i theta) = 2 := by
    rw [Matrix.dotProduct_smul, hw, smul_eq_mul, mul_one]
  have hcancel : ∀ M : Matrix (Fin n) (Fin n) ℝ, 1 - M - (M - (2 : ℝ) • M) = 1 := by
    intro M
    rw [two_smul]
    abel
  rw [sub_mul, one_mul, mul_sub, mul_one, vecMulVec_mul_vecMulVec, hdot]
  exact hcancel _

theorem householder_det {n : ℕ} {i : ℕ} (theta : ℝ)
    (hw : wv n i theta ⬝ᵥ wv n i theta = 1) :
    (1 - vecMulVec ((2 : ℝ) • wv n i theta) (wv n i theta)).det = -1 := by
  have hrw : (1 : Matrix (Fin n) (Fin n) ℝ) - vecMulVec ((2 : ℝ) • wv n i theta) (wv n i theta)
      = 1 + Matrix.col (Fin 1) ((-2 : ℝ) • wv n i theta) * Matrix.row (Fin 1) (wv n i theta) := by
    rw [← Matrix.vecMulVec_eq (Fin 1)]
    ext a b
    simp only [Matrix.sub_apply, Matrix.add_apply, vecMulVec_apply, Pi.smul_apply,
      smul_eq_mul]
    ring
  rw [hrw, Matrix.det_one_add_col_mul_row, Matrix.dotProduct_smul, hw, smul_eq_mul]
  norm_num

theorem reflect_diag_sq {n : ℕ} (i : ℕ) :
    Matrix.diagonal (fun b : Fin n => if (b : ℕ) = i + 1 then (-1 : ℝ) else 1) *
      Matrix.diagonal (fun b : Fin n => if (b : ℕ) = i + 1 then (-1 : ℝ) else 1) = 1 := by
  rw [Matrix.diagonal_mul_diagonal]
  ext a b
  by_cases hab : a = b
  · subst hab
    by_cases ha : (a : ℕ) = i + 1 <;>
      simp [Matrix.diagonal_apply_eq, Matrix.one_apply, ha]
  · simp [Matrix.diagonal_apply_ne _ hab, Matrix.one_apply, hab]

theorem reflect_diag_det {n : ℕ} {i : ℕ} (h : i + 1 < n) :
    (Matrix.diagonal (fun b : Fin n => if (b : ℕ) = i + 1 then (-1 : ℝ) else 1)).det
      = -1 := by
  rw [Matrix.det_diagonal]
  have hcong : ∀ b : Fin n, (if (b : ℕ) = i + 1 then (-1 : ℝ) else 1)
      = (if b = (⟨i + 1, h⟩ : Fin n) then (-1 : ℝ) else 1) := by
    intro b
    by_cases hb : (b : ℕ) = i + 1
    · rw [if_pos hb, if_pos (Fin.ext hb)]
    · rw [if_neg hb, if_neg fun hcon => hb (by rw [hcon])]
  rw [Finset.prod_congr rfl fun b _ => hcong b]
  rw [Finset.prod_ite_eq' Finset.univ (⟨i + 1, h⟩ : Fin n) fun _ => (-1 : ℝ)]
  simp

theorem givens_orthogonal {n : ℕ} {i : ℕ} (h : i + 1 < n) (theta : ℝ) :
    (givens n i theta)ᵀ * givens n i theta = 1 ∧ (givens n i theta).det = 1 := by
  have hw := wv_dot h theta
  have hfac := givens_factorization (n := n) (i := i) theta
  constructor
  · rw [hfac, Matrix.transpose_mul, householder_transpose, Matrix.diagonal_transpose,
      Matrix.mul_assoc, ← Matrix.mul_assoc
        (1 - vecMulVec ((2 : ℝ) • wv n i theta) (wv n i theta))
        (1 - vecMulVec ((2 : ℝ) • wv n i theta) (wv n i theta)),
      householder_sq i theta hw, Matrix.one_mul, reflect_diag_sq]
  · rw [hfac, Matrix.det_mul, householder_det theta hw, reflect_diag_det h]
    norm_num

/-- C9: for every `n` and every sequence of rotation angles, the matrix
returned by `generate_rotation_matrix n` — the product of `n−1` successive
planar Givens rotations in adjacent coordinate planes — is orthogonal
(`RᵀR = 1`) with determinant 1. -/
theorem claim9_rotation_matrix (n : ℕ) (thetas : ℕ → ℝ) :
    (generate_rotation_matrix n thetas)ᵀ * generate_rotation_matrix n thetas = 1 ∧
    (generate_rotation_matrix n thetas).det = 1 := by
  rw [generate_rotation_matrix]
  have key : ∀ l : List ℕ, (∀ i ∈ l, i + 1 < n) →
      ∀ R : Matrix (Fin n) (Fin n) ℝ, Rᵀ * R = 1 → R.det = 1 →
      ((l.foldl (fun result i => result * givens n i (thetas i)) R)ᵀ *
          l.foldl (fun result i => result * givens n i (thetas i)) R = 1 ∧
        (l.foldl (fun result i => result * givens n i (thetas i)) R).det = 1) := by
    intro l
    induction l with
    | nil => exact fun _ R hR hd => ⟨hR, hd⟩
    | cons a t ih =>
      intro hmem R hR hd
      have hga := givens_orthogonal (hmem a (List.mem_cons_self a t)) (thetas a)
      refine ih (fun i hi => hmem i (List.mem_cons_of_mem a hi)) _ ?_ ?_
      · rw [Matrix.transpose_mul, Matrix.mul_assoc, ← Matrix.mul_assoc Rᵀ R,
          hR, Matrix.one_mul, hga.1]
      · rw [Matrix.det_mul, hd, one_mul, hga.2]
  exact key (List.range (n - 1)) (fun i hi => by have := List.mem_range.mp hi; omega) 1
    (by rw [Matrix.transpose_one, Matrix.one_mul]) Matrix.det_one

/- ### C8: no operation mutates its inputs -/

/-- A store of numpy arrays (length-`p` rational vectors); Python variables
holding arrays are references (indices) into the store. Only the optimum
verifier ever writes to an existing array (`alpha_copy[i] = x`), so the
store holds the regularization vectors; `X` and `y`, which no routine
writes, are passed by value. -/
abbrev Heap (p : ℕ) : Type := List (Fin p → ℚ)

/-- Read the array behind reference `r`. -/
def hread {p : ℕ} (H : Heap p) (r : ℕ) : Fin p → ℚ := H.getD r 0

/-- Model of `np.array(v)`: allocate a fresh array with contents `v`; returns the
grown store and the fresh reference. -/
def halloc {p : ℕ} (H : Heap p) (v : Fin p → ℚ) : Heap p × ℕ := (H ++ [v], H.length)

/-- Model of `a[i] = x`: in-place update of the array behind reference `r`. -/
def hwrite {p : ℕ} (H : Heap p) (r : ℕ) (i : Fin p) (x : ℚ) : Heap p :=
  H.set r (Function.update (hread H r) i x)

/-- The closure `f` of `verify_loocv_opt_p` with the array store explicit:
`alpha_copy = np.array(alpha)` allocates, `alpha_copy[i] = x` writes the
copy in place, and the LOOCV score is evaluated on the copy's contents. -/
def fEvalP {n p : ℕ} (X : Matrix (Fin n) (Fin p) ℚ) (y : Fin n → ℚ) (H : Heap p)
    (r : ℕ) (i : Fin p) (x : ℚ) : Heap p × ℚ :=
  let ac := halloc H (hread H r)
  let H2 := hwrite ac.1 ac.2 i x
  (H2, compute_loocv_sim X y (Matrix.diagonal (hread H2 ac.2)))

/-- Function `verify_loocv_opt_p` with the array store explicit: the heap is threaded
through every score evaluation and returned with the failure flag. -/
def verify_loocv_opt_p_state {n p : ℕ} (X : Matrix (Fin n) (Fin p) ℚ) (y : Fin n → ℚ)
    (H : Heap p) (r : ℕ) : Heap p × Bool :=
  (List.finRange p).foldl
    (fun acc i =>
      let alpha_i := hread acc.1 r i
      let e0 := fEvalP X y acc.1 r i alpha_i
      [alpha_i - delta_x, alpha_i + delta_x].foldl
        (fun st x0 =>
          let ex := fEvalP X y st.1 r i |x0|
          let relative_delta_y := (ex.2 - e0.2) / delta_x
          (ex.1, st.2 || decide (relative_delta_y < 0 ∧ 1 / 1000 < |relative_delta_y|)))
        (e0.1, acc.2))
    (H, false)

/-- One store-threaded evaluation writes only to the fresh copy: every
previously allocated cell is unchanged and stays allocated. -/
theorem fEvalP_heap {n p : ℕ} (X : Matrix (Fin n) (Fin p) ℚ) (y : Fin n → ℚ)
    (H : Heap p) (r r' : ℕ) (i : Fin p) (x : ℚ) (hr : r' < H.length) :
    hread (fEvalP X y H r i x).1 r' = hread H r' ∧
    r' < (fEvalP X y H r i x).1.length := by
  have hL : (fEvalP X y H r i x).1
      = (H ++ [hread H r]).set H.length
          (Function.update (hread (H ++ [hread H r]) H.length) i x) := rfl
  have hlen : (fEvalP X y H r i x).1.length = H.length + 1 := by
    rw [hL, List.length_set, List.length_append, List.length_singleton]
  constructor
  · rw [hL, hread, hread, List.getD_eq_getElem _ _ (by
      rw [List.length_set, List.length_append, List.length_singleton]; omega),
      List.getElem_set_ne (by omega), List.getElem_append_left hr]
    rw [hread, List.getD_eq_getElem _ _ hr]
  · omega

/-- Folding a store-threaded step that preserves reads below the frontier
preserves them globally. -/
theorem foldl_heap_invariant {p : ℕ} {α : Type} (r : ℕ)
    (step : Heap p × Bool → α → Heap p × Bool)
    (hstep : ∀ st a, r < st.1.length →
      hread (step st a).1 r = hread st.1 r ∧ r < (step st a).1.length) :
    ∀ (l : List α) (st : Heap p × Bool), r < st.1.length →
      hread (l.foldl step st).1 r = hread st.1 r ∧
      r < (l.foldl step st).1.length := by
  intro l
  induction l with
  | nil => exact fun st h => ⟨rfl, h⟩
  | cons a t ih =>
    intro st h
    obtain ⟨h1, h2⟩ := hstep st a h
    obtain ⟨h3, h4⟩ := ih (step st a) h2
    rw [List.foldl_cons]
    exact ⟨h3.trans h1, h4⟩

/-- C8: running the store-threaded optimum verifier leaves the array behind
the caller's reference (the parameter vector `alpha`) unchanged: every write
goes to the freshly allocated `alpha_copy`. The LOOCV estimators and the
ridge fit contain no writes to arrays at all and are embedded as pure
functions, so no call mutates `X`, `y`, or the regularization parameter. -/
theorem claim8_no_mutation {n p : ℕ} (X : Matrix (Fin n) (Fin p) ℚ) (y : Fin n → ℚ)
    (H : Heap p) (r : ℕ) (hr : r < H.length) :
    hread (verify_loocv_opt_p_state X y H r).1 r = hread H r := by
  rw [verify_loocv_opt_p_state]
  refine (foldl_heap_invariant r _ ?_ (List.finRange p) (H, false) hr).1
  intro acc i hacc
  obtain ⟨g1, g2⟩ := fEvalP_heap X y acc.1 r r i (hread acc.1 r i) hacc
  have hinner := foldl_heap_invariant r
    (fun st x0 =>
      let ex := fEvalP X y st.1 r i |x0|
      let relative_delta_y := (ex.2 - (fEvalP X y acc.1 r i (hread acc.1 r i)).2) / delta_x
      (ex.1, st.2 || decide (relative_delta_y < 0 ∧ 1 / 1000 < |relative_delta_y|)))
    (fun st x0 hst => fEvalP_heap X y st.1 r r i |x0| hst)
    [hread acc.1 r i - delta_x, hread acc.1 r i + delta_x]
    ((fEvalP X y acc.1 r i (hread acc.1 r i)).1, acc.2) g2
  exact ⟨hinner.1.trans g1, hinner.2⟩

/-- Witness for C8 at `p = 1`, a one-cell store holding the constant array
`2`, `X = [[1]]`, `y = [1]`. -/
theorem claim8_no_mutation_witness :
    (0 : ℕ) < ([fun _ => (2 : ℚ)] : Heap 1).length ∧
    hread (verify_loocv_opt_p_state (Matrix.of ![![(1 : ℚ)]]) ![1]
        ([fun _ => (2 : ℚ)] : Heap 1) 0).1 0
      = hread ([fun _ => (2 : ℚ)] : Heap 1) 0 := by
  constructor
  · show (0 : ℕ) < ([fun _ => (2 : ℚ)] : List (Fin 1 → ℚ)).length
    simp
  · exact claim8_no_mutation (Matrix.of ![![(1 : ℚ)]]) ![1] _ 0 (by
      show (0 : ℕ) < ([fun _ => (2 : ℚ)] : List (Fin 1 → ℚ)).length
      simp)
